import Mathlib

/-!
Verification of the entity-normalization and reconciliation pipeline of the
qgis-features-analyzer repository.  Python string handling is embedded as
executable functions over `List Char`; fuzzy-matching scores (floats in the
0–100 range in the source, produced by the rapidfuzz library) are embedded as
exact rationals.  Each embedded definition mirrors one function of the source
scripts; the section headers name the file being embedded.
-/

/-! ### Python string primitives -/

/-- Characters treated as whitespace by Python `str.strip` / `\s` /
`str.split()` (the ASCII subset, which covers every input considered here). -/
def isWsChar (c : Char) : Bool :=
  c == ' ' || c == '\t' || c == '\n' || c == '\r' || c == '\x0b' || c == '\x0c'

/-- Python `str.lower` on one character: ASCII A–Z plus the Latin-1
supplement À–Þ (which covers É, Ï, Ü and the other accented capitals that
occur in the data) map down by 32 code points; everything else is fixed. -/
def pyToLowerChar (c : Char) : Char :=
  if 'A' ≤ c ∧ c ≤ 'Z' then Char.ofNat (c.toNat + 32)
  else if 0xC0 ≤ c.toNat ∧ c.toNat ≤ 0xDE ∧ c.toNat ≠ 0xD7 then Char.ofNat (c.toNat + 32)
  else c

/-- Python `str.lower` over a character list. -/
def pyLowerL (l : List Char) : List Char := l.map pyToLowerChar

/-- Does `pat` occur as a prefix of `l`?  (Empty `pat` always matches.) -/
def startsWithL : List Char → List Char → Bool
  | [], _ => true
  | _ :: _, [] => false
  | p :: ps, c :: cs => p == c && startsWithL ps cs

/-- Python `sub in s`: does `pat` occur as a contiguous substring of `l`? -/
def containsL : List Char → List Char → Bool
  | [], pat => pat.isEmpty
  | c :: cs, pat => startsWithL pat (c :: cs) || containsL cs pat

/-- Drop the longest suffix of `l` all of whose characters satisfy `p`. -/
def dropTrailingWhile (p : Char → Bool) (l : List Char) : List Char :=
  (l.reverse.dropWhile p).reverse

/-- Python `str.strip()` (no argument): remove leading and trailing
whitespace. -/
def pyStripL (l : List Char) : List Char :=
  (dropTrailingWhile isWsChar l).dropWhile isWsChar

/-- Python `str.strip(c)` for a single character `c`: remove leading and
trailing runs of that character. -/
def stripCharL (c : Char) (l : List Char) : List Char :=
  (dropTrailingWhile (· == c) l).dropWhile (· == c)

/-- Python `str.split()` (no argument): split on whitespace runs, dropping
empty fields.  `acc` holds the current token reversed. -/
def splitWsAux : List Char → List Char → List (List Char)
  | [], acc => if acc.isEmpty then [] else [acc.reverse]
  | c :: cs, acc =>
    if isWsChar c then
      if acc.isEmpty then splitWsAux cs [] else acc.reverse :: splitWsAux cs []
    else splitWsAux cs (c :: acc)

/-- Tokens of a string under Python `str.split()`. -/
def splitWsL (l : List Char) : List (List Char) := splitWsAux l []

/-- Python `re.sub(r'\s+', ' ', s)`: collapse every whitespace run to one
space.  The flag records whether the previous character was inside a run. -/
def collapseRunsAux : List Char → Bool → List Char
  | [], _ => []
  | c :: cs, inRun =>
    if isWsChar c then
      if inRun then collapseRunsAux cs true else ' ' :: collapseRunsAux cs true
    else c :: collapseRunsAux cs false

/-- Python `re.sub(r'\s+', ' ', s)`. -/
def collapseRuns (l : List Char) : List Char := collapseRunsAux l false

/-- Python `str.split(sep)` for a fixed non-empty separator, restricted by a
fuel argument (`fuel = length + 1` suffices, since every step consumes at
least one character). -/
def splitOnAuxL (sep : List Char) : Nat → List Char → List Char → List (List Char)
  | 0, l, acc => [acc.reverse ++ l]
  | _ + 1, [], acc => [acc.reverse]
  | fuel + 1, c :: cs, acc =>
    if startsWithL sep (c :: cs) then
      acc.reverse :: splitOnAuxL sep fuel ((c :: cs).drop sep.length) []
    else splitOnAuxL sep fuel cs (c :: acc)

/-- Python `str.split(sep)` (non-regex, non-empty separator). -/
def splitOnL (sep l : List Char) : List (List Char) :=
  splitOnAuxL sep (l.length + 1) l []

/-- Case-insensitive literal match: if `l` starts with `pat` up to Python
`lower`, return the remainder of `l`. -/
def matchCI : List Char → List Char → Option (List Char)
  | [], l => some l
  | _ :: _, [] => none
  | p :: ps, c :: cs =>
    if pyToLowerChar c == pyToLowerChar p then matchCI ps cs else none

/-- Lookup in an association list (Python `dict.get(k)`). -/
def lookupList (m : List (String × String)) (k : String) : Option String :=
  match m with
  | [] => none
  | (a, b) :: r => if a = k then some b else lookupList r k

/-- Repeatedly delete every leftmost occurrence recognised by the matcher
`f`, which, when it succeeds at the current position, returns the input with
the matched (non-empty) span removed from the front — the semantics of
`re.sub(pat, '', s)` for the patterns used here.  Fuel bounds the scan;
`fuel = length` suffices because every successful match consumes at least
one character. -/
def scrubAux (f : List Char → Option (List Char)) : Nat → List Char → List Char
  | 0, l => l
  | _ + 1, [] => []
  | fuel + 1, c :: cs =>
    match f (c :: cs) with
    | some rest => scrubAux f fuel rest
    | none => c :: scrubAux f fuel cs

/-- Remove every occurrence recognised by `f` (see `scrubAux`). -/
def scrub (f : List Char → Option (List Char)) (l : List Char) : List Char :=
  scrubAux f l.length l

/-! ### normalize_features.py / extract_features_from_zips.py :
`normalize_developer_name` (the two copies in the source are identical) -/

/-- Matcher for one parenthetical pattern `\s*\(PHRASE\)` with
`re.IGNORECASE`: optional whitespace, `(`, the phrase case-insensitively,
`)`.  Returns the remainder after the match. -/
def matchWsParenPhrase (phrase : List Char) (l : List Char) : Option (List Char) :=
  match l.dropWhile isWsChar with
  | '(' :: r =>
    match matchCI phrase r with
    | some (')' :: r') => some r'
    | _ => none
  | _ => none

/-- Matcher for the pattern `\s*\(http[s]?://[^\)]+\)` (re.IGNORECASE). -/
def matchHttpParen (l : List Char) : Option (List Char) :=
  match l.dropWhile isWsChar with
  | '(' :: r =>
    match matchCI ['h', 't', 't', 'p'] r with
    | some r1 =>
      let r2 := match r1 with
                | 's' :: t => t
                | 'S' :: t => t
                | _ => r1
      match matchCI [':', '/', '/'] r2 with
      | some r3 =>
        let content := r3.takeWhile (fun c => c != ')')
        match r3.drop content.length with
        | ')' :: r' => if content.isEmpty then none else some r'
        | _ => none
      | none => none
    | none => none
  | _ => none

/-- The eleven `patterns_to_remove` of `normalize_developer_name`, applied in
order with `re.sub(pattern, '', name, flags=re.IGNORECASE)`. -/
def stripParenPatterns (l : List Char) : List Char :=
  let phrases : List String :=
    ["North Road", "North", "Lutra Consulting", "Lutra", "OPENGIS.ch",
     "Kartoza", "Oslandia", "OSLANDIA", "Faunalia", "www.kartoza.com"]
  scrub matchHttpParen
    (phrases.foldl (fun acc ph => scrub (matchWsParenPhrase ph.toList) acc) l)

/-- Python `re.sub(r'^OSLANDIA\s*-\s*', '', name, flags=re.IGNORECASE)`. -/
def stripOslandiaLead (l : List Char) : List Char :=
  match matchCI "oslandia".toList l with
  | none => l
  | some r1 =>
    match r1.dropWhile isWsChar with
    | '-' :: r2 => r2.dropWhile isWsChar
    | _ => l

/-- Python `re.sub(r'\s+in collaboration with.*$', '', name,
flags=re.IGNORECASE)`: cut the string at the leftmost whitespace run that is
followed by the phrase (the inputs here are single-line). -/
def stripCollab : List Char → List Char
  | [] => []
  | c :: cs =>
    if isWsChar c then
      match matchCI "in collaboration with".toList (cs.dropWhile isWsChar) with
      | some _ => []
      | none => c :: stripCollab cs
    else c :: stripCollab cs

/-- Python `re.sub(r'\s*/\s*$', '', name)`: remove a trailing
whitespace-slash-whitespace run, when present. -/
def stripTrailingSlash (l : List Char) : List Char :=
  let a := dropTrailingWhile isWsChar l
  match a.getLast? with
  | some '/' => dropTrailingWhile isWsChar a.dropLast
  | _ => l

/-- Number of tokens of Python `s.split()` (used in the
`len(name_lower.split()) == 1` guards). -/
def numTokens (l : List Char) : Nat := (splitWsL l).length

/-- The `normalize_developer_name` rule chain of normalize_features.py
(lines 49–231; extract_features_from_zips.py lines 223–395 is an identical
copy).  The organization short-circuits, the parenthetical stripping, the
alias table and the final cleanup are translated branch for branch. -/
def normalize_developer_name (name : String) : String :=
  if name = "" ∨ name = "Not specified" then name
  else
    let l := name.toList
    if containsL (pyLowerL l) "opengis.ch".toList || containsL (pyLowerL l) "opengis".toList then
      "OPENGIS.ch"
    else if containsL (pyLowerL l) "kartoza".toList then "Kartoza"
    else
      let n := pyStripL (stripCollab (stripOslandiaLead (stripParenPatterns l)))
      if n = [] then "Not specified"
      else
        let nl := pyLowerL n
        if nl = "north road".toList then "Nyall Dawson"
        else if containsL nl "jef-n".toList then "Jürgen Fischer"
        else if containsL nl "juergen".toList || containsL nl "jürgen".toList then
          "Jürgen Fischer"
        else if containsL nl "lutra".toList then "Lutra Consulting"
        else if startsWithL "denis".toList nl then "Denis Rouzaud"
        else if startsWithL "etienne".toList nl || startsWithL "étienne".toList nl then
          "Étienne Trimaille"
        else if (startsWithL "matteo ghetta".toList nl || startsWithL "matteo".toList nl)
                && (containsL nl "ghetta".toList || nl = "matteo".toList) then
          "Matteo Ghetta"
        else if nl = "andrea".toList
                || (startsWithL "andrea".toList nl && !containsL nl "giudiceandrea".toList
                    && numTokens nl = 1)
                || (containsL nl "andrea".toList && containsL nl "giudiceandrea".toList) then
          "Andrea Giudiceandrea"
        else if nl = "ismail".toList
                || (startsWithL "ismail".toList nl && !containsL nl "sunni".toList
                    && numTokens nl = 1)
                || (containsL nl "ismail".toList && containsL nl "sunni".toList) then
          "Ismail Sunni"
        else if nl = "nathan".toList
                || (startsWithL "nathan".toList nl && !containsL nl "woodrow".toList
                    && numTokens nl = 1)
                || (containsL nl "nathan".toList && containsL nl "woodrow".toList) then
          "Nathan Woodrow"
        else if nl = "marco".toList
                || (startsWithL "marco".toList nl && !containsL nl "bernasocchi".toList
                    && numTokens nl = 1)
                || (containsL nl "marco".toList && containsL nl "bernasocchi".toList) then
          "Marco Bernasocchi"
        else if nl = "salvatore".toList
                || (startsWithL "salvatore".toList nl && !containsL nl "larosa".toList
                    && numTokens nl = 1)
                || (containsL nl "salvatore".toList && containsL nl "larosa".toList) then
          "Salvatore Larosa"
        else if containsL nl "nyall".toList then "Nyall Dawson"
        else if containsL nl "mathieu".toList then "Mathieu Pellerin"
        else if nl = "alessandro".toList
                || (startsWithL "alessandro".toList nl && !containsL nl "pasotti".toList)
                || (containsL nl "alessandro".toList && containsL nl "pasotti".toList) then
          "Alessandro Pasotti"
        else if nl = "alexander".toList || nl = "alex bruy".toList
                || nl = "alexander bruy".toList
                || ((startsWithL "alexander".toList nl || startsWithL "alex".toList nl)
                    && containsL nl "bruy".toList) then
          "Alexander Bruy"
        else if nl = "even".toList
                || (startsWithL "even".toList nl && !containsL nl "rouault".toList
                    && numTokens nl = 1)
                || (containsL nl "even".toList && containsL nl "rouault".toList) then
          "Even Rouault"
        else if containsL nl "loïc".toList || containsL nl "loic".toList then
          "Loïc Bartoletti"
        else if nl = "martin".toList
                || (startsWithL "martin".toList nl && !containsL nl "dobias".toList
                    && numTokens nl = 1)
                || (containsL nl "martin".toList && containsL nl "dobias".toList) then
          "Martin Dobias"
        else if nl = "matthias".toList
                || (startsWithL "matthias".toList nl && !containsL nl "kuhn".toList
                    && numTokens nl = 1)
                || (containsL nl "matthias".toList && containsL nl "kuhn".toList) then
          "Matthias Kuhn"
        else if nl = "julien".toList
                || (startsWithL "julien".toList nl && !containsL nl "cabieces".toList
                    && numTokens nl = 1)
                || (containsL nl "julien".toList && containsL nl "cabieces".toList) then
          "Julien Cabieces"
        else if nl = "paul".toList || nl = "pau blottiere".toList
                || (containsL nl "paul".toList && containsL nl "blottiere".toList)
                || (containsL nl "pau".toList && containsL nl "blottiere".toList) then
          "Paul Blottiere"
        else if nl = "sandro".toList
                || (startsWithL "sandro".toList nl && !containsL nl "santilli".toList
                    && numTokens nl = 1)
                || (containsL nl "sandro".toList && containsL nl "santilli".toList) then
          "Sandro Santilli"
        else
          let c1 := pyStripL (collapseRuns n)
          let c2 := pyStripL (dropTrailingWhile (· == ',') c1)
          let c3 := pyStripL (stripTrailingSlash c2)
          if c3 = [] then "Not specified" else String.mk c3

/-! ### The pattern `^(.+?)\s*\(([^)]+)\)$` of re.search, shared by
normalize_developers.py (line 36) and extract_companies_developers.py
(line 175).  The lazy first group makes the match split at the first `(`
that is followed by no further `)` before the final one; the translation
scans left to right and accepts the first such `(` whose prefix yields a
valid (non-empty, newline-free) first group. -/

/-- First group of the match: `acc` is the reversed prefix before the
accepted `(`.  `\s*` eats the maximal whitespace run next to the `(`; the
lazy `.+?` group is whatever remains, which must be non-empty and free of
newlines (`.` does not match a newline).  When the whole prefix is
whitespace the group is the single first character (provided it is not a
newline). -/
def group1Of (acc : List Char) : Option (List Char) :=
  let rest := acc.dropWhile isWsChar
  if rest.isEmpty then
    match acc.getLast? with
    | some c => if c == '\n' then none else some [c]
    | none => none
  else if rest.contains '\n' then none
  else some rest.reverse

/-- Scan the body (the input minus its final `)`) for the `(` accepted by
the pattern; returns (first group, second group). -/
def parenScan : List Char → List Char → Option (List Char × List Char)
  | _, [] => none
  | acc, c :: rest =>
    if c = '(' then
      if !rest.isEmpty && !rest.contains ')' then
        match group1Of acc with
        | some g1 => some (g1, rest)
        | none => parenScan (c :: acc) rest
      else parenScan (c :: acc) rest
    else parenScan (c :: acc) rest

/-- `re.search(r'^(.+?)\s*\(([^)]+)\)$', s)`: the string must end with `)`
(`$` also matches just before one trailing newline); the rest is handled by
`parenScan`. -/
def parenMatch (l : List Char) : Option (List Char × List Char) :=
  let l' := if l.getLast? == some '\n' then l.dropLast else l
  match l'.getLast? with
  | some ')' => parenScan [] l'.dropLast
  | _ => none

/-! ### normalize_developers.py : `extract_developer_name`,
`normalize_name_basic`, `find_fuzzy_clusters` -/

/-- The `company_keywords` list of `extract_developer_name`
(normalize_developers.py lines 42–44). -/
def extractCompanyKeywords : List String :=
  ["lutra", "opengis", "oslandia", "kartoza", "north road",
   "faunalia", "qcooperative", "spatialys", "3liz", "qgis",
   "consulting", "gmbh", "sarl"]

/-- Does the (already lowered) text contain one of the
`company_keywords`? -/
def anyExtractKeyword (lowered : List Char) : Bool :=
  extractCompanyKeywords.any (fun kw => containsL lowered kw.toList)

/-- `extract_developer_name` (normalize_developers.py lines 20–62): strip
quotes and whitespace, return collaborations unchanged, otherwise classify a
`Name (Company)` / `Company (Name)` parenthetical; `none` models Python's
`None` for empty or `"Not specified"` input. -/
def extract_developer_name (devString : String) : Option String :=
  if devString = "" ∨ devString = "Not specified" then none
  else
    let d := pyStripL (stripCharL '"' devString.toList)
    if [" & ", " and ", ", "].any (fun sep => containsL d sep.toList) then
      some (String.mk d)
    else
      match parenMatch d with
      | some (g1, g2) =>
        let first := pyStripL g1
        let second := pyStripL g2
        if anyExtractKeyword (pyLowerL first) then some (String.mk second)
        else if anyExtractKeyword (pyLowerL second) then some (String.mk first)
        else if containsL (pyLowerL second) "with".toList then some (String.mk first)
        else some (String.mk first)
      | none => some (String.mk d)

/-- The `normalizations` table of `normalize_name_basic`
(normalize_developers.py lines 70–86), applied after whitespace
collapsing. -/
def basicNormalizations : List (String × String) :=
  [("Martian Dobias", "Martin Dobias"),
   ("Alex Bruy", "Alexander Bruy"),
   ("Belgacem Nedjima", "Nedjima Belgacem"),
   ("Nyall Dawson", "Nyall Dawson"),
   ("Matthias Kuhn", "Matthias Kuhn"),
   ("Martin Dobiaš", "Martin Dobias"),
   ("Loïc Bartoletti", "Loïc Bartoletti"),
   ("Loic Bartoletti", "Loïc Bartoletti"),
   ("Mathieu Pellerin", "Mathieu Pellerin"),
   ("Germán Carrillo", "Germán Carrillo"),
   ("German Carrillo", "Germán Carrillo"),
   ("René-Luc D\x27Hont", "René-Luc D\x27Hont"),
   ("Rene-Luc D\x27Hont", "René-Luc D\x27Hont"),
   ("Alessandro Pasotti", "Alessandro Pasotti"),
   ("Sandro Santilli", "Sandro Santilli")]

/-- `normalize_name_basic` (normalize_developers.py lines 64–95). -/
def normalize_name_basic (name : String) : String :=
  let collapsed := String.mk (List.intercalate [' '] (splitWsL name.toList))
  match lookupList basicNormalizations collapsed with
  | some canon => canon
  | none => collapsed

/-! ### rapidfuzz `fuzz.ratio` : the normalized InDel similarity,
`100 * 2 * lcs(a, b) / (len a + len b)` (with two empty strings scoring
100), computed over Unicode code points of the lowercased inputs. -/

/-- One row update of the longest-common-subsequence dynamic program:
given the previous row (values for each prefix of `b`) and the next
character `c` of `a`, produce the row without its leading zero. -/
def lcsStepAux (c : Char) : List Char → List Nat → Nat → List Nat
  | [], _, _ => []
  | bj :: brest, pj :: prest, curj =>
    let pj1 := prest.headD 0
    let nv := if bj == c then pj + 1 else max curj pj1
    nv :: lcsStepAux c brest prest nv
  | _ :: _, [], _ => []

/-- One full row of the LCS dynamic program. -/
def lcsStep (c : Char) (b : List Char) (prev : List Nat) : List Nat :=
  0 :: lcsStepAux c b prev 0

/-- Length of a longest common subsequence of `a` and `b`. -/
def lcsLen (a b : List Char) : Nat :=
  ((a.foldl (fun prev c => lcsStep c b prev) (List.replicate (b.length + 1) 0)).getLast?).getD 0

/-- rapidfuzz `fuzz.ratio` as an exact rational in 0–100 (`mkRat n d` is
`n / d`; the denominator is non-zero in the branch that uses it). -/
def fuzz_ratio (a b : List Char) : ℚ :=
  if a.length + b.length = 0 then 100
  else mkRat (200 * (lcsLen a b : Int)) (a.length + b.length)

/-- A stable insertion sort: `keep y x = true` means an element `y` already
in place stays in front of the inserted `x`.  With `keep y x = (key y >
key x)` this is Python's stable `list.sort(key=…, reverse=True)`; with
`keep y x = (key y < key x)` it is Python's ascending `sorted`. -/
def insertStable (keep : α → α → Bool) (x : α) : List α → List α
  | [] => [x]
  | y :: ys => if keep y x then y :: insertStable keep x ys else x :: y :: ys

/-- Stable sort by repeated insertion (agrees with Python's stable sort). -/
def sortStable (keep : α → α → Bool) : List α → List α
  | [] => []
  | x :: xs => insertStable keep x (sortStable keep xs)

/-- The comparison of `similar.sort(key=lambda x: x[2], reverse=True)`
(normalize_developers.py line 139): descending by raw occurrence count,
stable. -/
def keepByCountDesc (y x : String × ℚ × Nat) : Bool := y.2.2 > x.2.2

/-- The canonical designated for a candidate cluster list: the head of the
count-descending stable sort (`canonical = similar[0][0]`,
normalize_developers.py line 142). -/
def chooseCanonical (sim : List (String × ℚ × Nat)) : String :=
  ((sortStable keepByCountDesc sim).headD ("", 0, 0)).1

/-- State of the `find_fuzzy_clusters` loop: the accumulated
`name_mapping` dictionary (as an insertion-ordered association list) and the
`processed` set (as a membership list). -/
structure ClusterState where
  mapping : List (String × String)
  processed : List String

/-- The cluster-forming body of the `find_fuzzy_clusters` loop, entered when
`similar` is non-empty (normalize_developers.py lines 134–153): append the
seed itself with score 100, sort by count descending (stable), take the head
as canonical, map every other member to it and mark all members
processed. -/
def clusterStep (nm : String) (cnt : Nat) (simOthers : List (String × ℚ × Nat))
    (st : ClusterState) : ClusterState :=
  let sim := simOthers ++ [(nm, 100, cnt)]
  let canonical := chooseCanonical sim
  let sorted := sortStable keepByCountDesc sim
  let variants := sorted.filter (fun v => v.1 ≠ canonical)
  { mapping := st.mapping ++ variants.map (fun v => (v.1, canonical)),
    processed := st.processed ++ variants.map (·.1) ++ [canonical] }

/-- The main loop of `find_fuzzy_clusters` (normalize_developers.py lines
118–153), iterating over the unique names in first-seen order.  `uniq` is
the full unique-name list used to collect neighbours, `counts` the raw
occurrence counter, `th` the threshold compared against `fuzz.ratio` of the
lowercased names. -/
def fuzzyLoop (counts : String → Nat) (uniq : List String) (th : ℚ) :
    List String → ClusterState → ClusterState
  | [], st => st
  | nm :: rest, st =>
    if st.processed.contains nm then fuzzyLoop counts uniq th rest st
    else
      let simOthers :=
        (uniq.filter (fun o =>
            o ≠ nm && !st.processed.contains o
              && fuzz_ratio (pyLowerL nm.toList) (pyLowerL o.toList) ≥ th)).map
          (fun o => (o, fuzz_ratio (pyLowerL nm.toList) (pyLowerL o.toList), counts o))
      if simOthers.isEmpty then fuzzyLoop counts uniq th rest st
      else fuzzyLoop counts uniq th rest (clusterStep nm (counts nm) simOthers st)

/-- Unique elements in first-seen order (the key order of Python's
`Counter`). -/
def uniqueNames (names : List String) : List String :=
  names.foldl (fun acc n => if acc.contains n then acc else acc ++ [n]) []

/-- `find_fuzzy_clusters` (normalize_developers.py lines 97–155): filter out
empty names, cluster similar unique names and return the alias → canonical
mapping. -/
def find_fuzzy_clusters (names : List String) (th : ℚ) : List (String × String) :=
  let names := names.filter (fun n => n ≠ "")
  let uniq := uniqueNames names
  (fuzzyLoop (fun x => names.count x) uniq th uniq ⟨[], []⟩).mapping

/-- Application of the fuzzy mapping to one name
(`fuzzy_mapping[clean_name] if clean_name in fuzzy_mapping else clean_name`,
normalize_developers.py lines 221–232). -/
def applyMapping (m : List (String × String)) (x : String) : String :=
  (lookupList m x).getD x

/-! ### extract_companies_developers.py : `normalize_company_name`,
`is_company_name`, `extract_companies_developers` -/

/-- Matcher for `\s*\(.*?\)\s*` (lazy content, so up to the first `)`, which
`.` cannot reach across a newline): used by `normalize_company_name`. -/
def matchParenLazy (l : List Char) : Option (List Char) :=
  match l.dropWhile isWsChar with
  | '(' :: r =>
    let content := r.takeWhile (fun c => c != ')' && c != '\n')
    match r.drop content.length with
    | ')' :: rest => some (rest.dropWhile isWsChar)
    | _ => none
  | _ => none

/-- Matcher for `\s*\*\*\s*` (markdown bold marks with surrounding
whitespace). -/
def matchBoldMarks (l : List Char) : Option (List Char) :=
  match l.dropWhile isWsChar with
  | '*' :: '*' :: rest => some (rest.dropWhile isWsChar)
  | _ => none

/-- Python `re.sub(r'\s*@.*$', '', s)`: cut at the leftmost whitespace run
followed by `@`, or at a bare `@` (single-line inputs). -/
def stripAtMention : List Char → List Char
  | [] => []
  | c :: cs =>
    if c == '@' then []
    else if isWsChar c then
      match cs.dropWhile isWsChar with
      | '@' :: _ => []
      | _ => c :: stripAtMention cs
    else c :: stripAtMention cs

/-- The `company_mappings` dictionary of `normalize_company_name`
(extract_companies_developers.py lines 24–98), keys already lowercase.  The
`√`-sequences reproduce the literal bytes of the source file. -/
def companyMappings : List (String × String) :=
  [("opengis.ch", "OPENGIS.ch"),
   ("opengis", "OPENGIS.ch"),
   ("opengisch", "OPENGIS.ch"),
   ("opengis.ch gmbh", "OPENGIS.ch"),
   ("lutra consulting", "Lutra Consulting"),
   ("lutraconsulting", "Lutra Consulting"),
   ("lutra", "Lutra Consulting"),
   ("oslandia", "Oslandia"),
   ("oslandia -", "Oslandia"),
   ("north road", "North Road"),
   ("north road consulting", "North Road"),
   ("kartoza", "Kartoza"),
   ("for kartoza", "Kartoza"),
   ("faunalia", "Faunalia"),
   ("3liz", "3Liz"),
   ("3liz.com", "3Liz"),
   ("qgis.org donors and sponsors", "QGIS.ORG donors and sponsors"),
   ("qgis.org", "QGIS.ORG"),
   ("qgis grant program", "QGIS Grant Program"),
   ("qgis", "QGIS"),
   ("imhere asia", "iMHere Asia"),
   ("imhere-asia", "iMHere Asia"),
   ("qcooperative", "QCooperative"),
   ("qcooperative /", "QCooperative"),
   ("itopen / qcooperative", "QCooperative"),
   ("spatialys", "Spatialys"),
   ("swiss qgis user group", "Swiss QGIS User Group"),
   ("swiss qgis user-group", "Swiss QGIS User Group"),
   ("the swiss qgis user group", "Swiss QGIS User Group"),
   ("qgis swiss user group", "Swiss QGIS User Group"),
   ("bordeaux metropole", "Bordeaux M√©tropole"),
   ("bordeaux m√©trop√¥le", "Bordeaux M√©tropole"),
   ("bordeaux m√©tr√¥pole", "Bordeaux M√©tropole"),
   ("m√©trop√¥le de bordeaux", "Bordeaux M√©tropole"),
   ("m√©tropole europ√©enne de lille", "M√©tropole Europ√©enne de Lille"),
   ("m√©tropole de lille", "M√©tropole Europ√©enne de Lille"),
   ("lille metropole", "M√©tropole Europ√©enne de Lille"),
   ("metropole de lille", "M√©tropole Europ√©enne de Lille"),
   ("ifremer", "Ifremer"),
   ("arpa piemonte", "ARPA Piemonte"),
   ("**arpa piemonte**", "ARPA Piemonte"),
   ("a.r.p.a. piemonte", "ARPA Piemonte")]

/-- `normalize_company_name` (extract_companies_developers.py lines
15–118): lowercase and clean the name, look it up in the table, otherwise
return the original with markdown-bold removal and whitespace collapsing. -/
def normalize_company_name (company : String) : String :=
  if company = "" ∨ company = "Not specified" then company
  else
    let cl := pyStripL
      (scrub matchBoldMarks
        (stripAtMention
          (scrub matchParenLazy (pyStripL (pyLowerL company.toList)))))
    match lookupList companyMappings (String.mk cl) with
    | some canon => canon
    | none =>
      String.mk (collapseRuns (scrub matchBoldMarks (pyStripL company.toList)))

/-- The `company_keywords` of `is_company_name`
(extract_companies_developers.py lines 120–125): each keyword and the text
are compared after `lower()` and `replace(' ', '')`. -/
def isCompanyKeywords : List String :=
  ["lutra", "opengis", "oslandia", "kartoza", "northroad",
   "faunalia", "qcooperative", "spatialys", "3liz", "qgis"]

/-- `is_company_name` (extract_companies_developers.py lines 120–125). -/
def is_company_name (text : String) : Bool :=
  let t := (pyLowerL text.toList).filter (fun c => c != ' ')
  isCompanyKeywords.any (fun kw => containsL t kw.toList)

/-- The `developer_normalizations` dictionary
(extract_companies_developers.py lines 136–140), applied with `.get(name,
name)`. -/
def devNorm (s : String) : String :=
  if s = "Martian Dobias" then "Martin Dobias"
  else if s = "Alex Bruy" then "Alexander Bruy"
  else if s = "Belgacem Nedjima" then "Nedjima Belgacem"
  else s

/-- The collaboration separators checked by the reconciler
(extract_companies_developers.py line 155). -/
def collabSeps : List String := [" & ", " and ", ", ", " with "]

/-- The `Developer (Company)` / `Company (Developer)` branch of the
reconciler loop (extract_companies_developers.py lines 174–201): returns
the (normalized company, developer) pair upserted for this record, or
`none` when the record contributes nothing. -/
def parenPath (developer : String) : Option (String × String) :=
  match parenMatch developer.toList with
  | none => none
  | some (g1, g2) =>
    let first := String.mk (stripCharL '"' (pyStripL g1))
    let second := String.mk (pyStripL g2)
    let cd := if is_company_name first && !is_company_name second
              then (first, second) else (second, first)
    if !startsWithL "http".toList cd.1.toList
        && !containsL (pyLowerL cd.1.toList) "with ".toList then
      if cd.2 = "Alessandro Pasotti" && containsL cd.1.toList "North Road".toList then
        none
      else some (normalize_company_name cd.1, devNorm cd.2)
    else none

/-- One iteration of the reconciler loop
(extract_companies_developers.py lines 148–201): the (normalized company,
developer) pair whose feature count the record increments, or `none` when
the record is discarded. -/
def processRecord (raw : String) : Option (String × String) :=
  let developer := String.mk (pyStripL raw.toList)
  if developer = "" ∨ developer = "Not specified" then none
  else if collabSeps.any (fun sep => containsL developer.toList sep.toList) then none
  else
    let slashParts := splitOnL " / ".toList developer.toList
    if containsL developer.toList " / ".toList && slashParts.length = 2
        && is_company_name (String.mk (slashParts.headD [])) then
      some (normalize_company_name (String.mk (pyStripL (slashParts.headD []))),
            devNorm (String.mk (stripCharL '"' (pyStripL (slashParts.getD 1 [])))))
    else if is_company_name developer && !containsL developer.toList "(".toList then
      none
    else parenPath developer

/-- Increment the feature count of one (company, developer) pair, appending
a fresh pair with count 1 (the `defaultdict(int)` upsert of
extract_companies_developers.py lines 167 and 201). -/
def bumpPair (p : String × String) :
    List ((String × String) × Nat) → List ((String × String) × Nat)
  | [] => [(p, 1)]
  | (q, n) :: rest =>
    if q = p then (q, n + 1) :: rest else (q, n) :: bumpPair p rest

/-- The whole reconciler loop over the input records: the accumulated
`company_developer_features` counter in insertion order. -/
def reconcile (records : List String) : List ((String × String) × Nat) :=
  records.foldl
    (fun st r => match processRecord r with
      | none => st
      | some p => bumpPair p st) []

/-- Lexicographic code-point comparison of character lists (Python string
`<`). -/
def lexLtL : List Char → List Char → Bool
  | [], [] => false
  | [], _ :: _ => true
  | _ :: _, [] => false
  | a :: as, b :: bs =>
    if a.toNat < b.toNat then true
    else if b.toNat < a.toNat then false
    else lexLtL as bs

/-- Comparison used to order the output rows: by company, then by developer
(the `for company in sorted(...): for developer in sorted(...)` of
extract_companies_developers.py lines 217–225). -/
def keepRowLt (y x : (String × String) × Nat) : Bool :=
  lexLtL y.1.1.toList x.1.1.toList
    || (y.1.1 == x.1.1 && lexLtL y.1.2.toList x.1.2.toList)

/-- The `csv_data` rows written by the reconciler: the accumulated
(company, developer, feature count) triples sorted by company then
developer. -/
def csvRows (records : List String) : List ((String × String) × Nat) :=
  sortStable keepRowLt (reconcile records)

/-! ### aggregate_data.py : the average computations -/

/-- Division guarded against a zero denominator (`total_feat / dev_count if
dev_count > 0 else 0`, aggregate_data.py line 54 and line 121). -/
def guardedAvg (total : Nat) (devCount : Nat) : ℚ :=
  if devCount > 0 then (total : ℚ) / (devCount : ℚ) else 0

/-- Python's unguarded `/`, which raises `ZeroDivisionError` on a zero
denominator — embedded as `none` in that case. -/
def pyDiv (a b : ℚ) : Option ℚ := if b = 0 then none else some (a / b)

/-- The overall summary averages of aggregate_data.py lines 96–107:
`total_features / total_developers` and `total_features / total_companies`,
computed with Python's unguarded division over the distinct developer and
company counts of the loaded (company, developer, features) rows.  `none`
models the ZeroDivisionError raised when a count is zero. -/
def overallAverages (links : List (String × String × Nat)) : Option (ℚ × ℚ) :=
  let total : ℚ := ((links.map (fun r => r.2.2)).sum : Nat)
  let devs := uniqueNames (links.map (fun r => r.2.1))
  let comps := uniqueNames (links.map (fun r => r.1))
  match pyDiv total (devs.length : ℚ), pyDiv total (comps.length : ℚ) with
  | some x, some y => some (x, y)
  | _, _ => none

/-! ### validate_companies_mapping.py : `find_best_match` and the
classification loop of `validate_mappings` -/

/-- Python `max` on two rationals, written with an explicit comparison so
that it evaluates by kernel reduction (it agrees with `max`). -/
def qmax (a b : ℚ) : ℚ := if a ≤ b then b else a

/-- rapidfuzz `fuzz.partial_ratio`: the optimal alignment of the shorter
string inside the longer one, i.e. the best `fuzz.ratio` between the shorter
string and a contiguous substring of the longer. -/
def fuzz_part_ratio (a b : List Char) : ℚ :=
  let p := if a.length ≤ b.length then (a, b) else (b, a)
  ((p.2.tails.flatMap (fun t => t.inits)).map (fun w => fuzz_ratio p.1 w)).foldl qmax 0

/-- rapidfuzz `fuzz.token_sort_ratio`: split on whitespace, sort the tokens
(code-point order, as Python `sorted`), join with single spaces, then
`fuzz.ratio`. -/
def fuzz_token_sort_ratio (a b : List Char) : ℚ :=
  let tsort := fun (l : List Char) =>
    List.intercalate [' '] (sortStable (fun y x => lexLtL y x) (splitWsL l))
  fuzz_ratio (tsort a) (tsort b)

/-- The per-reference score of `find_best_match`
(validate_companies_mapping.py lines 76–83): the maximum of the three
metrics over the lowercased names. -/
def score3 (dev ref : String) : ℚ :=
  let a := pyLowerL dev.toList
  let b := pyLowerL ref.toList
  qmax (fuzz_ratio a b) (qmax (fuzz_part_ratio a b) (fuzz_token_sort_ratio a b))

/-- The accumulator step of `find_best_match`: keep the new reference only
on a strictly better score. -/
def bestStep (dev : String) (best : Option String × ℚ) (ref : String) :
    Option String × ℚ :=
  if score3 dev ref > best.2 then (some ref, score3 dev ref) else best

/-- `find_best_match` (validate_companies_mapping.py lines 68–92). -/
def find_best_match (dev : String) (refs : List String) (threshold : ℚ) :
    Option String × ℚ :=
  if refs.isEmpty then (none, 0)
  else
    let res := refs.foldl (bestStep dev) ((none : Option String), (0 : ℚ))
    if res.2 ≥ threshold then res else (none, res.2)

/-- Per-link judgment of the validator. -/
inductive MatchOutcome where
  | validated : ℚ → MatchOutcome
  | suggested : String → ℚ → MatchOutcome
  | unmatched : ℚ → MatchOutcome
deriving DecidableEq

/-- The classification of one link against a company's roster
(validate_companies_mapping.py lines 127–140): exact membership gives
`validated 100`; otherwise `find_best_match` with threshold 85 yields
`suggested` on a hit and `unmatched` (with the best score) on a miss. -/
def classifyDev (dev : String) (refNames : List String) : MatchOutcome :=
  if refNames.contains dev then .validated 100
  else
    match find_best_match dev refNames 85 with
    | (some m, s) => .suggested m s
    | (none, s) => .unmatched s

/-- Modelled from the spec (§4.6): the maximum, over all roster entries, of
the three similarity metrics between the developer name and the entry. -/
def specBestScore (dev : String) (refs : List String) : ℚ :=
  (refs.map (fun r => score3 dev r)).foldl qmax 0

/-- Modelled from the spec (§4.6): the best-matching roster name — the first
roster entry attaining the maximal score. -/
def specBestRef (dev : String) (refs : List String) : Option String :=
  refs.find? (fun r => score3 dev r == specBestScore dev refs)

/-- Modelled from the spec (§4.6): exact roster membership is Validated
with score 100; otherwise a maximal score at or above the threshold 85 is
Suggested with the best-matching roster name and that score, and below it is
Unmatched with the best score reported. -/
def specClassify (dev : String) (refs : List String) : MatchOutcome :=
  if refs.contains dev then .validated 100
  else if specBestScore dev refs ≥ 85 then
    .suggested ((specBestRef dev refs).getD "") (specBestScore dev refs)
  else .unmatched (specBestScore dev refs)

/-! ### Further definitions used by the statements below -/

/-- The canonical names produced by the explicit rules of
`normalize_developer_name` (rules 1–26 of its documentation). -/
def canonicalForms : List String :=
  ["Nyall Dawson", "Mathieu Pellerin", "Alessandro Pasotti", "Alexander Bruy",
   "Even Rouault", "Loïc Bartoletti", "Martin Dobias", "Matthias Kuhn",
   "Julien Cabieces", "Paul Blottiere", "Jürgen Fischer", "Sandro Santilli",
   "Salvatore Larosa", "Denis Rouzaud", "Étienne Trimaille",
   "Andrea Giudiceandrea", "Ismail Sunni", "Nathan Woodrow", "Matteo Ghetta",
   "Marco Bernasocchi", "Lutra Consulting", "OPENGIS.ch", "Kartoza",
   "Not specified"]

/-- The first element of maximal occurrence count in a candidate-cluster
list (ties go to the earlier element). -/
def firstMaxByCount : List (String × ℚ × Nat) → Option (String × ℚ × Nat)
  | [] => none
  | x :: xs =>
    match firstMaxByCount xs with
    | none => some x
    | some m => if m.2.2 > x.2.2 then some m else some x

/-- The (company, developer) keys of a counter list. -/
def rowKeys (l : List ((String × String) × Nat)) : List (String × String) :=
  l.map Prod.fst

/-- The total of the feature counts of a counter list. -/
def sumCounts (l : List ((String × String) × Nat)) : Nat :=
  (l.map Prod.snd).sum

/-! ### Claim C1 : where the "lutra" rule fires in
`normalize_developer_name` -/

/-- C1, counterexample: the claim says the "lutra" short-circuit fires
before any parenthetical stripping, so that "Bob (Lutra)" normalizes to
"Lutra Consulting".  In the code the opengis/kartoza checks do come first,
but the "lutra" check sits after the parenthetical stripping, so the
`(Lutra)` parenthetical is removed and "Bob (Lutra)" normalizes to "Bob"
(and "Person (Lutra Consulting)" to "Person") — even though both inputs
contain the substring "lutra" case-insensitively. -/
theorem lutra_shortcircuit_counterexample :
    containsL (pyLowerL "Bob (Lutra)".toList) "lutra".toList = true ∧
    normalize_developer_name "Bob (Lutra)" = "Bob" ∧
    normalize_developer_name "Person (Lutra Consulting)" = "Person" := by
  refine ⟨by decide, by decide, by decide⟩

/-- C1, amended: input guards and the opengis/kartoza short-circuits fire
on the raw name, but the "lutra" rule only fires on the name left after
parenthetical stripping, the OSLANDIA-prefix / collaboration-clause removal
and whitespace stripping, and after the north-road/jef-n/juergen rules; any
name whose stripped form still contains "lutra" (and misses those earlier
rules) normalizes to "Lutra Consulting". -/
theorem lutra_rule_fires_after_paren_stripping (name : String)
    (h0 : ¬ name = "") (h1 : ¬ name = "Not specified")
    (h2 : containsL (pyLowerL name.toList) "opengis.ch".toList = false)
    (h3 : containsL (pyLowerL name.toList) "opengis".toList = false)
    (h4 : containsL (pyLowerL name.toList) "kartoza".toList = false)
    (h5 : ¬ pyStripL (stripCollab (stripOslandiaLead (stripParenPatterns name.toList))) = [])
    (h6 : ¬ pyLowerL (pyStripL (stripCollab (stripOslandiaLead (stripParenPatterns name.toList))))
            = "north road".toList)
    (h7 : containsL (pyLowerL (pyStripL (stripCollab (stripOslandiaLead (stripParenPatterns name.toList)))))
            "jef-n".toList = false)
    (h8 : containsL (pyLowerL (pyStripL (stripCollab (stripOslandiaLead (stripParenPatterns name.toList)))))
            "juergen".toList = false)
    (h9 : containsL (pyLowerL (pyStripL (stripCollab (stripOslandiaLead (stripParenPatterns name.toList)))))
            "jürgen".toList = false)
    (h10 : containsL (pyLowerL (pyStripL (stripCollab (stripOslandiaLead (stripParenPatterns name.toList)))))
            "lutra".toList = true) :
    normalize_developer_name name = "Lutra Consulting" := by
  simp only [normalize_developer_name, h0, h1, h2, h3, h4, h5, h6, h7, h8, h9, h10,
    or_self, if_false, Bool.or_self, Bool.false_or, if_true, ite_false, ite_true,
    Bool.false_eq_true]

/-- C1, witness for the amended theorem at the name "Lutra Consulting". -/
theorem lutra_rule_fires_after_paren_stripping_witness :
    normalize_developer_name "Lutra Consulting" = "Lutra Consulting" :=
  lutra_rule_fires_after_paren_stripping "Lutra Consulting"
    (by decide) (by decide) (by decide) (by decide) (by decide) (by decide)
    (by decide) (by decide) (by decide) (by decide) (by decide)

/-! ### Claim C6 : the collaboration discard of the reconciler -/

/-- C6, counterexample: the reconciler checks the separators on the
whitespace-stripped field, not the raw one.  The raw field
`"Kartoza / Bob & "` contains the separator `" & "` (at its end), yet after
stripping the trailing space the check misses it and the record produces a
link — so, read over raw fields, the claim fails. -/
theorem collab_separator_raw_field_counterexample :
    containsL "Kartoza / Bob & ".toList " & ".toList = true ∧
    reconcile ["Kartoza / Bob & "] = [(("Kartoza", "Bob &"), 1)] := by
  refine ⟨by decide, by decide⟩

/-- C6, amended: every record whose whitespace-stripped developer field
contains one of the separators " & ", " and ", ", ", " with " is discarded
and contributes no link. -/
theorem collab_separator_discard (raw : String)
    (h : collabSeps.any
      (fun sep => containsL (pyStripL raw.toList) sep.toList) = true) :
    processRecord raw = none := by
  unfold processRecord
  by_cases h0 : String.mk (pyStripL raw.toList) = "" ∨
      String.mk (pyStripL raw.toList) = "Not specified"
  · simp only [h0, if_true, ite_true]
  · simp only [h0, if_false, ite_false]
    have : collabSeps.any
        (fun sep => containsL (String.mk (pyStripL raw.toList)).toList sep.toList) = true := h
    simp only [this, if_true, ite_true]

/-- C6, witness: the spec's own example "Alice & Bob" is discarded. -/
theorem collab_separator_discard_witness :
    processRecord "Alice & Bob" = none :=
  collab_separator_discard "Alice & Bob" (by decide)

/-! ### Claim C4 : the (person, organization) denylist -/

/-- C4, counterexample: the denylist ("Alessandro Pasotti" must never be
linked to a company containing "North Road") is checked only on the
parenthetical path.  The slash path `"Company / Developer"` has no such
check, and the record `"North Road / Alessandro Pasotti"` produces exactly
the denylisted link. -/
theorem denylist_missing_on_slash_path_counterexample :
    reconcile ["North Road / Alessandro Pasotti"]
      = [(("North Road", "Alessandro Pasotti"), 1)] ∧
    containsL "North Road".toList "North Road".toList = true := by
  refine ⟨by decide, by decide⟩

/-- C4, amended: on the parenthetical path the denylist is applied — once
the `Developer (Company)` / `Company (Developer)` pattern matches and the
chosen developer is "Alessandro Pasotti" with a chosen company string
containing "North Road", the record yields no link.  (The slash path, per
the counterexample, lacks this check.) -/
theorem denylist_applied_on_paren_path (developer : String) (g1 g2 : List Char)
    (cd : String × String)
    (hm : parenMatch developer.toList = some (g1, g2))
    (hcd : cd = (if is_company_name (String.mk (stripCharL '"' (pyStripL g1)))
                    && !is_company_name (String.mk (pyStripL g2))
                 then (String.mk (stripCharL '"' (pyStripL g1)), String.mk (pyStripL g2))
                 else (String.mk (pyStripL g2), String.mk (stripCharL '"' (pyStripL g1)))))
    (hdev : cd.2 = "Alessandro Pasotti")
    (hco : containsL cd.1.toList "North Road".toList = true) :
    parenPath developer = none := by
  unfold parenPath
  rw [hm]
  simp only [← hcd, hdev, hco, Bool.and_true, and_true]
  split
  · simp
  · rfl

/-- C4, witness for the amended theorem at the record
"Alessandro Pasotti (North Road)". -/
theorem denylist_applied_on_paren_path_witness :
    parenPath "Alessandro Pasotti (North Road)" = none :=
  denylist_applied_on_paren_path "Alessandro Pasotti (North Road)"
    "Alessandro Pasotti".toList "North Road".toList
    ("North Road", "Alessandro Pasotti")
    (by decide) (by decide) (by decide) (by decide)

/-! ### Claim C7 : zero denominators in the aggregator -/

/-- C7: the per-company average is guarded (zero developers give average
zero, never an error), but the overall summary averages
`total_features / total_developers` and `total_features / total_companies`
are not — on an empty link collection both denominators are zero and the
computation fails (Python raises ZeroDivisionError, embedded as `none`)
instead of producing the empty report the claim asserts. -/
theorem aggregator_zero_denominator_behaviour :
    (∀ total : Nat, guardedAvg total 0 = 0) ∧ overallAverages [] = none :=
  ⟨fun _ => rfl, by decide⟩

/-! ### Claim C9 : idempotence of the name normalizer on its canonical
forms -/

set_option maxRecDepth 40000 in
/-- C9: every canonical form of the rule table is a fixed point of the
normalizer, so `normalize (normalize x) = normalize x` on all of them. -/
theorem normalize_idempotent_on_canonical_forms :
    ∀ x ∈ canonicalForms,
      normalize_developer_name (normalize_developer_name x)
        = normalize_developer_name x := by
  decide

/-- C9, witness at "Nyall Dawson". -/
theorem normalize_idempotent_on_canonical_forms_witness :
    normalize_developer_name (normalize_developer_name "Nyall Dawson")
      = normalize_developer_name "Nyall Dawson" :=
  normalize_idempotent_on_canonical_forms "Nyall Dawson" (by decide)

/-! ### Claim C3 : canonical selection in a fuzzy cluster -/

set_option maxRecDepth 400000 in
/-- C3, counterexample: two names with equal occurrence counts (one each)
and similarity 90 ≥ 85 form one cluster.  The claim says the tie goes to the
first-seen member, i.e. the mapping should send "abcdefghik" to
"abcdefghij".  The code appends the seed (the first-seen member) last before
the stable count-descending sort, so the tie goes to the other member and
the first-seen name is mapped away instead. -/
theorem cluster_tie_break_counterexample :
    find_fuzzy_clusters ["abcdefghij", "abcdefghik"] 85
        = [("abcdefghij", "abcdefghik")] ∧
    ¬ find_fuzzy_clusters ["abcdefghij", "abcdefghik"] 85
        = [("abcdefghik", "abcdefghij")] := by
  refine ⟨by decide, by decide⟩

/-- An insertion never produces the empty list. -/
theorem insertStable_ne_nil {α : Type} (keep : α → α → Bool) (x : α) (l : List α) :
    insertStable keep x l ≠ [] := by
  cases l with
  | nil => simp [insertStable]
  | cons y ys =>
    unfold insertStable
    split <;> simp

/-- The stable sort of a list is empty exactly when the list is. -/
theorem sortStable_nil_iff {α : Type} (keep : α → α → Bool) (l : List α) :
    sortStable keep l = [] ↔ l = [] := by
  cases l with
  | nil => simp [sortStable]
  | cons x xs =>
    simp only [sortStable]
    constructor
    · intro h; exact absurd h (insertStable_ne_nil keep x (sortStable keep xs))
    · intro h; exact absurd h (List.cons_ne_nil x xs)

/-- Head of an insertion into a non-empty list. -/
theorem insertStable_head? {α : Type} (keep : α → α → Bool) (x y : α) (ys : List α) :
    (insertStable keep x (y :: ys)).head?
      = some (if keep y x then y else x) := by
  unfold insertStable
  split <;> simp_all

/-- A non-empty candidate list always has a first maximal member. -/
theorem firstMaxByCount_isSome (x : String × ℚ × Nat) (xs : List (String × ℚ × Nat)) :
    ∃ m, firstMaxByCount (x :: xs) = some m := by
  simp only [firstMaxByCount]
  cases firstMaxByCount xs with
  | none => exact ⟨x, rfl⟩
  | some m' => by_cases hc : m'.2.2 > x.2.2 <;> simp [hc]

/-- The head of the stable count-descending sort is the first member of
maximal count. -/
theorem sortStable_head?_count (l : List (String × ℚ × Nat)) :
    (sortStable keepByCountDesc l).head? = firstMaxByCount l := by
  induction l with
  | nil => rfl
  | cons x xs ih =>
    simp only [sortStable, firstMaxByCount]
    cases hs : sortStable keepByCountDesc xs with
    | nil =>
      have hxs : xs = [] := (sortStable_nil_iff _ _).mp hs
      subst hxs
      simp [insertStable, firstMaxByCount]
    | cons y ys =>
      rw [hs] at ih
      rw [insertStable_head?]
      simp only [List.head?_cons] at ih
      rw [← ih]
      by_cases hc : x.2.2 < y.2.2 <;> simp [keepByCountDesc, hc]

/-- The first maximal member has a count at least every member's. -/
theorem firstMaxByCount_le (l : List (String × ℚ × Nat)) (m : String × ℚ × Nat)
    (h : firstMaxByCount l = some m) : ∀ y ∈ l, y.2.2 ≤ m.2.2 := by
  induction l generalizing m with
  | nil => simp [firstMaxByCount] at h
  | cons x xs ih =>
    simp only [firstMaxByCount] at h
    intro y hy
    rcases List.mem_cons.mp hy with hy | hy
    · subst hy
      cases hm : firstMaxByCount xs with
      | none =>
        rw [hm] at h
        simp only [Option.some.injEq] at h
        subst h; exact le_refl _
      | some m' =>
        rw [hm] at h
        by_cases hc : m'.2.2 > y.2.2
        · simp only [if_pos hc, Option.some.injEq] at h
          subst h; exact le_of_lt hc
        · simp only [if_neg hc, Option.some.injEq] at h
          subst h; exact le_refl _
    · cases xs with
      | nil => simp at hy
      | cons a as =>
        obtain ⟨m', hm'⟩ := firstMaxByCount_isSome a as
        rw [hm'] at h
        have hle := ih m' hm' y hy
        by_cases hc : m'.2.2 > x.2.2
        · simp only [if_pos hc, Option.some.injEq] at h
          subst h; exact hle
        · simp only [if_neg hc, Option.some.injEq] at h
          subst h
          exact le_trans hle (not_lt.mp hc)

/-- C3, amended: in a cluster formed from a seed `nm` and the candidate
list `others ++ [(nm, 100, cnt)]` (the non-seed members in first-seen order
with the seed appended last), the designated canonical is the member of
maximal raw occurrence count, ties broken in favour of the earliest entry of
that candidate list — so on a tie the seed (the first-seen member) loses to
any other member; and the mapping records every other member of the sorted
cluster mapped to that canonical. -/
theorem cluster_canonical_first_max_count
    (others : List (String × ℚ × Nat)) (nm : String) (cnt : Nat)
    (st : ClusterState) :
    ∃ m, firstMaxByCount (others ++ [(nm, 100, cnt)]) = some m ∧
      chooseCanonical (others ++ [(nm, 100, cnt)]) = m.1 ∧
      (∀ y ∈ others ++ [(nm, 100, cnt)], y.2.2 ≤ m.2.2) ∧
      (clusterStep nm cnt others st).mapping
        = st.mapping
          ++ ((sortStable keepByCountDesc (others ++ [(nm, 100, cnt)])).filter
                (fun v => v.1 ≠ m.1)).map (fun v => (v.1, m.1)) := by
  obtain ⟨m, hm⟩ :
      ∃ m, firstMaxByCount (others ++ [(nm, 100, cnt)]) = some m := by
    cases others with
    | nil => exact firstMaxByCount_isSome (nm, 100, cnt) []
    | cons o os =>
      rw [List.cons_append]
      exact firstMaxByCount_isSome o (os ++ [(nm, 100, cnt)])
  have hhead : (sortStable keepByCountDesc (others ++ [(nm, 100, cnt)])).head?
      = some m := by rw [sortStable_head?_count, hm]
  have hcanon : chooseCanonical (others ++ [(nm, 100, cnt)]) = m.1 := by
    unfold chooseCanonical
    cases hsrt : sortStable keepByCountDesc (others ++ [(nm, 100, cnt)]) with
    | nil => rw [hsrt] at hhead; simp at hhead
    | cons z zs =>
      rw [hsrt] at hhead
      simp only [List.head?_cons, Option.some.injEq] at hhead
      rw [hhead]; rfl
  refine ⟨m, hm, hcanon, firstMaxByCount_le _ m hm, ?_⟩
  simp only [clusterStep, hcanon]

/-! ### Claim C5 : uniqueness and count-sum invariants of the reconciler -/

/-- An upsert adds exactly one to the total count. -/
theorem bumpPair_sum (p : String × String) (st : List ((String × String) × Nat)) :
    sumCounts (bumpPair p st) = sumCounts st + 1 := by
  induction st with
  | nil => rfl
  | cons e rest ih =>
    obtain ⟨q, n⟩ := e
    by_cases h : q = p
    · simp [bumpPair, h, sumCounts]
      omega
    · simp only [bumpPair, if_neg h, sumCounts, List.map_cons, List.sum_cons]
      simp only [sumCounts] at ih
      omega

/-- Upserting an existing key leaves the key list unchanged. -/
theorem bumpPair_keys_mem (p : String × String) (st : List ((String × String) × Nat))
    (h : p ∈ rowKeys st) : rowKeys (bumpPair p st) = rowKeys st := by
  induction st with
  | nil => simp [rowKeys] at h
  | cons e rest ih =>
    obtain ⟨q, n⟩ := e
    by_cases hq : q = p
    · simp [bumpPair, hq, rowKeys]
    · simp only [rowKeys, List.map_cons] at h
      rcases List.mem_cons.mp h with h | h
      · exact absurd h.symm hq
      · simp only [bumpPair, if_neg hq, rowKeys, List.map_cons]
        simp only [rowKeys] at ih
        rw [ih h]

/-- Upserting a fresh key appends it to the key list. -/
theorem bumpPair_keys_not_mem (p : String × String) (st : List ((String × String) × Nat))
    (h : p ∉ rowKeys st) : rowKeys (bumpPair p st) = rowKeys st ++ [p] := by
  induction st with
  | nil => rfl
  | cons e rest ih =>
    obtain ⟨q, n⟩ := e
    simp only [rowKeys, List.map_cons, List.mem_cons] at h
    push_neg at h
    have hq : ¬ q = p := fun hh => h.1 hh.symm
    simp only [bumpPair, if_neg hq, rowKeys, List.map_cons, List.cons_append]
    simp only [rowKeys] at ih
    rw [ih h.2]

/-- An upsert preserves distinctness of the keys. -/
theorem bumpPair_nodup (p : String × String) (st : List ((String × String) × Nat))
    (h : (rowKeys st).Nodup) : (rowKeys (bumpPair p st)).Nodup := by
  by_cases hm : p ∈ rowKeys st
  · rw [bumpPair_keys_mem p st hm]; exact h
  · rw [bumpPair_keys_not_mem p st hm]
    simp [List.nodup_append, h, hm]

/-- Invariant of the reconciler loop: keys stay distinct and the total
count grows by one per record that yields a pair. -/
theorem reconcile_fold (recs : List String) :
    ∀ st, (rowKeys st).Nodup →
    (rowKeys (List.foldl
        (fun st r => match processRecord r with
          | none => st
          | some p => bumpPair p st) st recs)).Nodup ∧
    sumCounts (List.foldl
        (fun st r => match processRecord r with
          | none => st
          | some p => bumpPair p st) st recs)
      = sumCounts st + (recs.filter (fun r => (processRecord r).isSome)).length := by
  induction recs with
  | nil => exact fun st h => ⟨h, by simp⟩
  | cons r rs ih =>
    intro st h
    simp only [List.foldl_cons, List.filter_cons]
    cases hp : processRecord r with
    | none =>
      have := ih st h
      simpa [hp] using this
    | some p =>
      have hnd := bumpPair_nodup p st h
      have hih := ih (bumpPair p st) hnd
      simp only [Option.isSome_some, if_true, List.length_cons]
      refine ⟨hih.1, ?_⟩
      have h2 : sumCounts (List.foldl
          (fun st r => match processRecord r with
            | none => st
            | some p => bumpPair p st) (bumpPair p st) rs)
          = sumCounts st + 1 + (rs.filter (fun r => (processRecord r).isSome)).length := by
        rw [hih.2, bumpPair_sum]
      rw [h2]
      omega

/-- Insertion permutes the element onto the list. -/
theorem insertStable_perm {α : Type} (keep : α → α → Bool) (x : α) (l : List α) :
    List.Perm (insertStable keep x l) (x :: l) := by
  induction l with
  | nil => rfl
  | cons y ys ih =>
    unfold insertStable
    split
    · exact ((ih.cons y).trans (List.Perm.swap x y ys))
    · rfl

/-- The stable sort is a permutation. -/
theorem sortStable_perm {α : Type} (keep : α → α → Bool) (l : List α) :
    List.Perm (sortStable keep l) l := by
  induction l with
  | nil => rfl
  | cons x xs ih =>
    exact (insertStable_perm keep x (sortStable keep xs)).trans (ih.cons x)

/-- C5: no two output rows of the reconciler share a (company, developer)
pair, and the feature counts over all output rows sum to the number of
input records that were not discarded (those on which `processRecord`
yields a pair). -/
theorem reconcile_rows_unique_and_counts_sum (records : List String) :
    ((csvRows records).map Prod.fst).Nodup ∧
    ((csvRows records).map Prod.snd).sum
      = (records.filter (fun r => (processRecord r).isSome)).length := by
  have hperm : List.Perm (csvRows records) (reconcile records) :=
    sortStable_perm keepRowLt (reconcile records)
  have hrec := reconcile_fold records [] (by simp [rowKeys])
  constructor
  · exact ((hperm.map Prod.fst).nodup_iff).mpr hrec.1
  · rw [(hperm.map Prod.snd).sum_eq]
    have h2 := hrec.2
    simpa [sumCounts, reconcile] using h2

/-! ### Claim C2 : classification of the `A (B)` attribution pattern -/

/-- Dropping a trailing run commutes with a non-matching head. -/
theorem dtw_cons_neg (p : Char → Bool) (a : Char) (l : List Char) (h : p a = false) :
    dropTrailingWhile p (a :: l) = a :: dropTrailingWhile p l := by
  unfold dropTrailingWhile
  rw [List.reverse_cons, List.dropWhile_append]
  by_cases he : (l.reverse.dropWhile p).isEmpty
  · simp only [he, if_true, ite_true]
    simp only [List.dropWhile_cons, h, Bool.false_eq_true, if_false, List.dropWhile_nil,
      List.reverse_cons, List.reverse_nil, List.nil_append, ite_false]
    have : l.reverse.dropWhile p = [] := by
      cases hq : l.reverse.dropWhile p with
      | nil => rfl
      | cons z zs => rw [hq] at he; simp at he
    rw [this]
    simp
  · simp [he]

/-- A non-matching last element stops trailing-run removal. -/
theorem dtw_concat_neg (p : Char → Bool) (b : Char) (l : List Char) (h : p b = false) :
    dropTrailingWhile p (l ++ [b]) = l ++ [b] := by
  unfold dropTrailingWhile
  rw [List.reverse_append]
  simp only [List.reverse_cons, List.reverse_nil, List.nil_append, List.singleton_append,
    List.dropWhile_cons, h, Bool.false_eq_true, if_false, ite_false]
  simp

/-- Trailing-run removal is idempotent. -/
theorem dtw_idem (p : Char → Bool) (l : List Char) :
    dropTrailingWhile p (dropTrailingWhile p l) = dropTrailingWhile p l := by
  unfold dropTrailingWhile
  rw [List.reverse_reverse]
  congr 1
  induction l.reverse with
  | nil => rfl
  | cons c cs ih =>
    by_cases h : p c
    · simp [List.dropWhile_cons, h, ih]
    · simp [List.dropWhile_cons, h]

/-- Trailing-run removal is front-run removal on the reverse. -/
theorem dtw_reverse_eq (p : Char → Bool) (l : List Char) :
    l.reverse.dropWhile p = (dropTrailingWhile p l).reverse := by
  unfold dropTrailingWhile
  rw [List.reverse_reverse]

/-- Members of the trailing-stripped list are members of the list. -/
theorem mem_dtw (p : Char → Bool) (l : List Char) (x : Char)
    (h : x ∈ dropTrailingWhile p l) : x ∈ l := by
  unfold dropTrailingWhile at h
  rw [List.mem_reverse] at h
  have := (List.dropWhile_sublist p).mem h
  rwa [List.mem_reverse] at this

/-- Stripping after trailing-run removal is plain stripping. -/
theorem pyStripL_dtw (l : List Char) :
    pyStripL (dropTrailingWhile isWsChar l) = pyStripL l := by
  unfold pyStripL
  rw [dtw_idem]

/-- A list with non-matching first and last characters is unchanged by
two-sided stripping. -/
theorem stripBoth_nochange (p : Char → Bool) (a b : Char) (mid : List Char)
    (ha : p a = false) (hb : p b = false) :
    ((dropTrailingWhile p (a :: (mid ++ [b]))).dropWhile p) = a :: (mid ++ [b]) := by
  rw [show a :: (mid ++ [b]) = (a :: mid) ++ [b] by simp]
  rw [dtw_concat_neg p b (a :: mid) hb]
  simp [List.dropWhile_cons, ha]

/-- `str.strip()` on a list with non-whitespace ends. -/
theorem pyStripL_nochange (a b : Char) (mid : List Char)
    (ha : isWsChar a = false) (hb : isWsChar b = false) :
    pyStripL (a :: (mid ++ [b])) = a :: (mid ++ [b]) :=
  stripBoth_nochange isWsChar a b mid ha hb

/-- `str.strip(c)` on a list whose ends differ from `c`. -/
theorem stripCharL_nochange (c a b : Char) (mid : List Char)
    (ha : (a == c) = false) (hb : (b == c) = false) :
    stripCharL c (a :: (mid ++ [b])) = a :: (mid ++ [b]) :=
  stripBoth_nochange (· == c) a b mid ha hb

/-- The first regex group next to the accepted `(`: the maximal whitespace
run is eaten and the newline-free prefix remains. -/
theorem group1Of_eval (a : Char) (A : List Char)
    (ha : isWsChar a = false) (hnl : '\n' ∉ a :: A) :
    group1Of (' ' :: (a :: A).reverse)
      = some (dropTrailingWhile isWsChar (a :: A)) := by
  unfold group1Of
  have hws : isWsChar ' ' = true := by decide
  simp only [List.dropWhile_cons, hws, if_true, ite_true]
  rw [dtw_reverse_eq]
  have hne : dropTrailingWhile isWsChar (a :: A) = a :: dropTrailingWhile isWsChar A :=
    dtw_cons_neg isWsChar a A ha
  have hemp : ((dropTrailingWhile isWsChar (a :: A)).reverse).isEmpty = false := by
    rw [hne]
    simp [List.isEmpty_iff]
  rw [hemp]
  have hcon : ((dropTrailingWhile isWsChar (a :: A)).reverse).contains '\n' = false := by
    by_contra hc
    have : ((dropTrailingWhile isWsChar (a :: A)).reverse).contains '\n' = true := by
      revert hc; cases ((dropTrailingWhile isWsChar (a :: A)).reverse).contains '\n' <;> simp
    have hmem : '\n' ∈ (dropTrailingWhile isWsChar (a :: A)).reverse := by
      simpa using this
    rw [List.mem_reverse] at hmem
    exact hnl (mem_dtw _ _ _ hmem)
  rw [hcon]
  simp

/-- The scan passes over a `(`-free prefix and accepts the first `(`
followed by a `)`-free non-empty body. -/
theorem parenScan_through (pre : List Char) :
    ∀ (acc B g1 : List Char), (∀ c ∈ pre, ¬ c = '(') →
    B.isEmpty = false → B.contains ')' = false →
    group1Of (pre.reverse ++ acc) = some g1 →
    parenScan acc (pre ++ '(' :: B) = some (g1, B) := by
  induction pre with
  | nil =>
    intro acc B g1 _ hBne hBpar hg
    simp only [List.nil_append, List.reverse_nil] at hg ⊢
    unfold parenScan
    simp only [if_pos rfl, hBne, hBpar, Bool.not_false, Bool.and_self, if_true, ite_true]
    rw [hg]
  | cons c pre' ih =>
    intro acc B g1 hpre hBne hBpar hg
    have hc : ¬ c = '(' := hpre c (List.mem_cons_self c pre')
    simp only [List.cons_append]
    unfold parenScan
    simp only [hc, if_false, ite_false]
    apply ih (c :: acc) B g1 (fun x hx => hpre x (List.mem_cons_of_mem c hx)) hBne hBpar
    rw [← hg, List.reverse_cons, List.append_assoc]
    simp

/-- Evaluation of the pattern `^(.+?)\\s*\\(([^)]+)\\)$` on a string of the
shape `A (B)` with a `(`-free `A` and `)`-free `B`. -/
theorem parenMatch_eval (a : Char) (A B : List Char)
    (ha : isWsChar a = false) (hApar : '(' ∉ a :: A) (hAnl : '\n' ∉ a :: A)
    (hBne : B.isEmpty = false) (hBpar : ')' ∉ B) :
    parenMatch (a :: (A ++ ' ' :: '(' :: (B ++ [')'])))
      = some (dropTrailingWhile isWsChar (a :: A), B) := by
  have hshape : a :: (A ++ ' ' :: '(' :: (B ++ [')']))
      = (a :: (A ++ ' ' :: '(' :: B)) ++ [')'] := by simp
  unfold parenMatch
  rw [hshape, List.getLast?_concat]
  have : ((some ')' : Option Char) == some '\n') = false := by decide
  rw [this]
  simp only [Bool.false_eq_true, if_false, ite_false]
  rw [List.getLast?_concat]
  simp only []
  rw [List.dropLast_concat]
  have hshape2 : a :: (A ++ ' ' :: '(' :: B) = (a :: (A ++ [' '])) ++ '(' :: B := by simp
  rw [hshape2]
  apply parenScan_through
  · intro c hc
    rcases List.mem_cons.mp hc with rfl | hc
    · intro h; exact hApar (h ▸ List.mem_cons_self _ _)
    · rcases List.mem_append.mp hc with hc | hc
      · intro h; subst h; exact hApar (List.mem_cons_of_mem a hc)
      · simp only [List.mem_singleton] at hc; subst hc; decide
  · exact hBne
  · by_contra hc
    have : B.contains ')' = true := by
      revert hc; cases B.contains ')' <;> simp
    have : ')' ∈ B := by simpa using this
    exact hBpar this
  · rw [List.append_nil, show (a :: (A ++ [' '])).reverse = ' ' :: (a :: A).reverse by simp]
    exact group1Of_eval a A ha hAnl

/-- C2, amended: provided the attribution string contains none of the
collaboration separators " & ", " and ", ", " (which are checked first and
return the string unchanged), a string of the shape `<A> (<B>)` is
classified exactly as the claim says: the half containing an organization
keyword is the affiliation — if `A` matches a keyword the returned name is
`B`, otherwise (whether or not `B` matches) the returned name is `A`. -/
theorem paren_classification_when_no_collab_separator
    (a : Char) (A B : List Char)
    (ha : isWsChar a = false) (haq : (a == '"') = false)
    (hApar : '(' ∉ a :: A) (hAnl : '\n' ∉ a :: A)
    (hBne : B ≠ []) (hBpar : ')' ∉ B)
    (hsep1 : containsL (a :: (A ++ ' ' :: '(' :: (B ++ [')']))) " & ".toList = false)
    (hsep2 : containsL (a :: (A ++ ' ' :: '(' :: (B ++ [')']))) " and ".toList = false)
    (hsep3 : containsL (a :: (A ++ ' ' :: '(' :: (B ++ [')']))) ", ".toList = false) :
    extract_developer_name (String.mk (a :: (A ++ ' ' :: '(' :: (B ++ [')']))))
      = some (if anyExtractKeyword (pyLowerL (pyStripL (a :: A)))
              then String.mk (pyStripL B) else String.mk (pyStripL (a :: A))) := by
  have hshape : a :: (A ++ ' ' :: '(' :: (B ++ [')']))
      = a :: ((A ++ ' ' :: '(' :: B) ++ [')']) := by simp
  have hne : ¬ (String.mk (a :: (A ++ ' ' :: '(' :: (B ++ [')']))) = "" ∨
      String.mk (a :: (A ++ ' ' :: '(' :: (B ++ [')']))) = "Not specified") := by
    rintro (h | h)
    · have := congrArg String.toList h
      simp at this
    · have := congrArg String.toList h
      have h2 := congrArg List.getLast? this
      rw [show (String.mk (a :: (A ++ ' ' :: '(' :: (B ++ [')'])))).toList
            = (a :: (A ++ ' ' :: '(' :: B)) ++ [')'] by simp] at h2
      rw [List.getLast?_concat] at h2
      exact absurd h2 (by decide)
  have hstrip : pyStripL (stripCharL '"'
      (String.mk (a :: (A ++ ' ' :: '(' :: (B ++ [')'])))).toList)
      = a :: (A ++ ' ' :: '(' :: (B ++ [')'])) := by
    have ht : (String.mk (a :: (A ++ ' ' :: '(' :: (B ++ [')'])))).toList
        = a :: ((A ++ ' ' :: '(' :: B) ++ [')']) := by simp
    rw [ht, stripCharL_nochange '"' a ')' _ haq (by decide),
      pyStripL_nochange a ')' _ ha (by decide)]
    simp
  have hBne' : B.isEmpty = false := by
    cases B with
    | nil => exact absurd rfl hBne
    | cons x xs => rfl
  have hmatch : parenMatch (a :: (A ++ ' ' :: '(' :: (B ++ [')'])))
      = some (dropTrailingWhile isWsChar (a :: A), B) :=
    parenMatch_eval a A B ha hApar hAnl hBne' hBpar
  unfold extract_developer_name
  rw [if_neg hne]
  simp only [hstrip]
  have hany : ([" & ", " and ", ", "] : List String).any
      (fun sep => containsL (a :: (A ++ ' ' :: '(' :: (B ++ [')']))) sep.toList) = false := by
    simp only [List.any_cons, List.any_nil, hsep1, hsep2, hsep3, Bool.or_self, Bool.false_or]
  rw [hany]
  simp only [Bool.false_eq_true, if_false, ite_false, hmatch]
  rw [pyStripL_dtw]
  by_cases hk : anyExtractKeyword (pyLowerL (pyStripL (a :: A))) = true
  · simp [hk]
  · simp only [Bool.not_eq_true] at hk
    simp only [hk, Bool.false_eq_true, if_false, ite_false, ite_true]
    split
    · rfl
    · split <;> rfl

/-- C2, counterexample: the collaboration check precedes the parenthetical
classification, so the string "Foo, Bar (Kartoza)" — which has the claimed
`<A> (<B>)` shape with `B` containing the keyword "kartoza" — is returned
whole instead of being classified with name "Foo, Bar". -/
theorem paren_classification_collab_counterexample :
    extract_developer_name "Foo, Bar (Kartoza)" = some "Foo, Bar (Kartoza)" ∧
    ¬ extract_developer_name "Foo, Bar (Kartoza)" = some "Foo, Bar" := by
  refine ⟨by decide, by decide⟩

/-- C2, witness for the amended theorem at "Nyall Dawson (North Road)". -/
theorem paren_classification_when_no_collab_separator_witness :
    extract_developer_name "Nyall Dawson (North Road)" = some "Nyall Dawson" := by
  have h := paren_classification_when_no_collab_separator 'N' "yall Dawson".toList
    "North Road".toList (by decide) (by decide) (by decide) (by decide)
    (by decide) (by decide) (by decide) (by decide) (by decide)
  have hstr : String.mk ('N' :: ("yall Dawson".toList ++ ' ' :: '(' ::
      ("North Road".toList ++ [')']))) = "Nyall Dawson (North Road)" := by decide
  rw [hstr] at h
  rw [h]
  decide

/-! ### Claim C8 : the validator classification -/

/-- `qmax` with a no-greater second argument. -/
theorem qmax_of_le (s x : ℚ) (h : x ≤ s) : qmax s x = s := by
  unfold qmax
  split
  · exact le_antisymm h (by assumption)
  · rfl

/-- `qmax` with a strictly greater second argument. -/
theorem qmax_of_gt (s x : ℚ) (h : s < x) : qmax s x = x := by
  unfold qmax
  rw [if_pos (le_of_lt h)]

/-- A running maximum never drops below its start. -/
theorem foldl_qmax_ge_init (l : List ℚ) : ∀ s : ℚ, s ≤ l.foldl qmax s := by
  induction l with
  | nil => exact fun s => le_refl s
  | cons x xs ih =>
    intro s
    refine le_trans ?_ (ih (qmax s x))
    unfold qmax
    split
    · assumption
    · exact le_refl s

/-- A running maximum is its start or an element of the list. -/
theorem foldl_qmax_attained (l : List ℚ) : ∀ s : ℚ,
    l.foldl qmax s = s ∨ l.foldl qmax s ∈ l := by
  induction l with
  | nil => exact fun s => Or.inl rfl
  | cons x xs ih =>
    intro s
    rcases ih (qmax s x) with h | h
    · rw [List.foldl_cons, h]
      unfold qmax
      split
      · exact Or.inr (List.mem_cons_self x xs)
      · exact Or.inl rfl
    · exact Or.inr (List.mem_cons_of_mem x h)

/-- The score accumulated by `find_best_match` is the running maximum of
the per-reference scores. -/
theorem bestFold_score (dev : String) (refs : List String) :
    ∀ (m0 : Option String) (s0 : ℚ),
    (refs.foldl (bestStep dev) (m0, s0)).2
      = (refs.map (score3 dev)).foldl qmax s0 := by
  induction refs with
  | nil => intro m0 s0; rfl
  | cons r rs ih =>
    intro m0 s0
    simp only [List.foldl_cons, List.map_cons]
    have hstep : bestStep dev (m0, s0) r
        = if score3 dev r > s0 then (some r, score3 dev r) else (m0, s0) := rfl
    rw [hstep]
    by_cases h : score3 dev r > s0
    · rw [if_pos h, ih, qmax_of_gt s0 _ h]
    · rw [if_neg h, ih, qmax_of_le s0 _ (not_lt.mp h)]

/-- The reference kept by `find_best_match` is the first one attaining the
maximal score, provided some reference improved on the start. -/
theorem bestFold_match (dev : String) (refs : List String) :
    ∀ (m0 : Option String) (s0 : ℚ),
    (refs.foldl (bestStep dev) (m0, s0)).1
      = if s0 < (refs.map (score3 dev)).foldl qmax s0
        then refs.find?
          (fun r => score3 dev r == (refs.map (score3 dev)).foldl qmax s0)
        else m0 := by
  induction refs with
  | nil =>
    intro m0 s0
    simp
  | cons r rs ih =>
    intro m0 s0
    simp only [List.foldl_cons, List.map_cons]
    have hstep : bestStep dev (m0, s0) r
        = if score3 dev r > s0 then (some r, score3 dev r) else (m0, s0) := rfl
    rw [hstep]
    by_cases h : score3 dev r > s0
    · rw [if_pos h, ih, qmax_of_gt s0 _ h]
      have hge : score3 dev r ≤ (rs.map (score3 dev)).foldl qmax (score3 dev r) :=
        foldl_qmax_ge_init _ _
      rw [if_pos (lt_of_lt_of_le h hge)]
      by_cases hM : score3 dev r < (rs.map (score3 dev)).foldl qmax (score3 dev r)
      · rw [if_pos hM]
        rw [List.find?_cons_of_neg]
        simp only [beq_iff_eq]
        exact ne_of_lt hM
      · have heq : (rs.map (score3 dev)).foldl qmax (score3 dev r) = score3 dev r :=
          le_antisymm (not_lt.mp hM) hge
        rw [if_neg hM, heq]
        rw [List.find?_cons_of_pos]
        simp
    · rw [if_neg h, ih, qmax_of_le s0 _ (not_lt.mp h)]
      by_cases hM : s0 < (rs.map (score3 dev)).foldl qmax s0
      · rw [if_pos hM, if_pos hM]
        rw [List.find?_cons_of_neg]
        simp only [beq_iff_eq]
        exact ne_of_lt (lt_of_le_of_lt (not_lt.mp h) hM)
      · rw [if_neg hM, if_neg hM]

/-- `find_best_match` against threshold 85, phrased with the spec-side
maximum and best reference. -/
theorem find_best_match_eq (dev : String) (refs : List String) :
    find_best_match dev refs 85
      = (if (85 : ℚ) ≤ specBestScore dev refs
         then (specBestRef dev refs, specBestScore dev refs)
         else (none, specBestScore dev refs)) := by
  unfold find_best_match
  cases refs with
  | nil =>
    simp only [List.isEmpty_nil, if_true, ite_true]
    have h0 : specBestScore dev [] = 0 := rfl
    rw [h0, if_neg (by norm_num)]
  | cons r rs =>
    simp only [List.isEmpty_cons, Bool.false_eq_true, if_false, ite_false]
    have hspec : specBestScore dev (r :: rs)
        = ((r :: rs).map (score3 dev)).foldl qmax 0 := rfl
    have hsc : ((r :: rs).foldl (bestStep dev) ((none : Option String), (0 : ℚ))).2
        = specBestScore dev (r :: rs) :=
      (bestFold_score dev (r :: rs) none 0).trans hspec.symm
    have hm := bestFold_match dev (r :: rs) none 0
    rw [← hspec] at hm
    have href : specBestRef dev (r :: rs)
        = (r :: rs).find? (fun x => score3 dev x == specBestScore dev (r :: rs)) := rfl
    rw [← href] at hm
    rw [hsc]
    by_cases hth : (85 : ℚ) ≤ specBestScore dev (r :: rs)
    · rw [if_pos hth, if_pos hth]
      refine Prod.ext ?_ ?_
      · rw [hm, if_pos (lt_of_lt_of_le (by norm_num) hth)]
      · exact hsc
    · rw [if_neg hth, if_neg hth]

/-- When the maximal score reaches the threshold some roster entry attains
it. -/
theorem specBestRef_isSome (dev : String) (refs : List String)
    (h : (85 : ℚ) ≤ specBestScore dev refs) :
    ∃ r0, specBestRef dev refs = some r0 := by
  have hat := foldl_qmax_attained (refs.map (score3 dev)) 0
  have hspec : specBestScore dev refs = (refs.map (score3 dev)).foldl qmax 0 := rfl
  rcases hat with h0 | hmem
  · rw [hspec, h0] at h
    norm_num at h
  · rw [← hspec] at hmem
    obtain ⟨r, hrmem, hreq⟩ := List.mem_map.mp hmem
    have : (refs.find? (fun x => score3 dev x == specBestScore dev refs)).isSome := by
      rw [List.find?_isSome]
      exact ⟨r, hrmem, by simpa using hreq⟩
    obtain ⟨r0, hr0⟩ := Option.isSome_iff_exists.mp this
    exact ⟨r0, hr0⟩

/-- The implementation classification agrees with the spec-side one. -/
theorem classify_eq_spec (dev : String) (refs : List String) :
    classifyDev dev refs = specClassify dev refs := by
  unfold classifyDev specClassify
  by_cases hc : refs.contains dev = true
  · rw [if_pos hc, if_pos hc]
  · rw [if_neg hc, if_neg hc]
    rw [find_best_match_eq]
    by_cases hth : (85 : ℚ) ≤ specBestScore dev refs
    · rw [if_pos hth, if_pos hth]
      obtain ⟨r0, hr0⟩ := specBestRef_isSome dev refs hth
      rw [hr0]
      simp [hr0]
    · rw [if_neg hth, if_neg hth]

/-- The first argument never exceeds the maximum. -/
theorem qmax_le_left (a b : ℚ) : a ≤ qmax a b := by
  unfold qmax
  split
  · assumption
  · exact le_refl a

set_option maxRecDepth 1000000 in
/-- The plain InDel ratio of the claim's instance: 650/7, about 92.9. -/
theorem ratio_jurgen :
    fuzz_ratio (pyLowerL "Jurgen Fischer".toList) (pyLowerL "Jürgen Fischer".toList)
      = mkRat 650 7 := by decide

/-- The combined score of the instance is at least the threshold 85. -/
theorem score3_jurgen_ge : (85 : ℚ) ≤ score3 "Jurgen Fischer" "Jürgen Fischer" := by
  have hle : fuzz_ratio (pyLowerL "Jurgen Fischer".toList)
      (pyLowerL "Jürgen Fischer".toList) ≤ score3 "Jurgen Fischer" "Jürgen Fischer" :=
    qmax_le_left _ _
  rw [ratio_jurgen] at hle
  exact le_trans (by decide) hle

/-- Against the one-entry roster the maximal score is the single score. -/
theorem specBestScore_jurgen :
    specBestScore "Jurgen Fischer" ["Jürgen Fischer"]
      = score3 "Jurgen Fischer" "Jürgen Fischer" := by
  have h0 : (0 : ℚ) ≤ score3 "Jurgen Fischer" "Jürgen Fischer" :=
    le_trans (by norm_num) score3_jurgen_ge
  unfold specBestScore
  simp only [List.map_cons, List.map_nil, List.foldl_cons, List.foldl_nil]
  unfold qmax
  rw [if_pos h0]

/-- The instance is classified Suggested with the roster name. -/
theorem classify_jurgen :
    classifyDev "Jurgen Fischer" ["Jürgen Fischer"]
      = MatchOutcome.suggested "Jürgen Fischer"
          (score3 "Jurgen Fischer" "Jürgen Fischer") := by
  rw [classify_eq_spec]
  unfold specClassify
  rw [if_neg (by decide)]
  rw [specBestScore_jurgen, if_pos score3_jurgen_ge]
  have href : specBestRef "Jurgen Fischer" ["Jürgen Fischer"]
      = some "Jürgen Fischer" := by
    unfold specBestRef
    rw [specBestScore_jurgen]
    rw [List.find?_cons_of_pos]
    simp
  rw [href]
  rfl

/-- C8: for every link with roster data the classification is exactly the
claim's: exact roster membership gives Validated with score 100, otherwise
the maximum over all roster entries of the three similarity metrics decides
between Suggested (with the best-matching roster name and that score, when
it reaches 85) and Unmatched (with the best score reported); and the
instance "Jurgen Fischer" against roster ["Jürgen Fischer"] is Suggested —
not Validated, not Unmatched — with a score of at least 85. -/
theorem validator_classification_spec :
    (∀ dev refs, classifyDev dev refs = specClassify dev refs) ∧
    classifyDev "Jurgen Fischer" ["Jürgen Fischer"]
      = MatchOutcome.suggested "Jürgen Fischer"
          (score3 "Jurgen Fischer" "Jürgen Fischer") ∧
    (85 : ℚ) ≤ score3 "Jurgen Fischer" "Jürgen Fischer" :=
  ⟨classify_eq_spec, classify_jurgen, score3_jurgen_ge⟩

/-! ### Claim C10 : the fuzzy alias mapping has disjoint keys and values -/

/-- A lookup misses when no entry has the key. -/
theorem lookupList_eq_none (m : List (String × String)) (k : String)
    (h : ∀ e ∈ m, ¬ e.1 = k) : lookupList m k = none := by
  induction m with
  | nil => rfl
  | cons e rest ih =>
    obtain ⟨a, b⟩ := e
    unfold lookupList
    rw [if_neg (h (a, b) (List.mem_cons_self _ _))]
    exact ih (fun e' he' => h e' (List.mem_cons_of_mem _ he'))

/-- A successful lookup exhibits an entry. -/
theorem lookupList_mem (m : List (String × String)) (k v : String)
    (h : lookupList m k = some v) : (k, v) ∈ m := by
  induction m with
  | nil => simp [lookupList] at h
  | cons e rest ih =>
    obtain ⟨a, b⟩ := e
    unfold lookupList at h
    by_cases ha : a = k
    · rw [if_pos ha] at h
      simp only [Option.some.injEq] at h
      subst ha; subst h
      exact List.mem_cons_self _ _
    · rw [if_neg ha] at h
      exact List.mem_cons_of_mem _ (ih h)

/-- The designated canonical is the name of some cluster member. -/
theorem chooseCanonical_mem_names (sim : List (String × ℚ × Nat)) (h : sim ≠ []) :
    chooseCanonical sim ∈ sim.map Prod.fst := by
  unfold chooseCanonical
  cases hs : sortStable keepByCountDesc sim with
  | nil => exact absurd ((sortStable_nil_iff _ _).mp hs) h
  | cons z zs =>
    have hz : z ∈ sortStable keepByCountDesc sim := by
      rw [hs]; exact List.mem_cons_self z zs
    have : z ∈ sim := (sortStable_perm keepByCountDesc sim).mem_iff.mp hz
    simp only [List.headD_cons]
    exact List.mem_map.mpr ⟨z, this, rfl⟩

/-- Forming one cluster from members that are not yet processed preserves
the invariant: mapped keys and canonicals are processed, and no recorded
canonical is a recorded key. -/
theorem clusterStep_inv (nm : String) (cnt : Nat)
    (simOthers : List (String × ℚ × Nat)) (st : ClusterState)
    (hfresh : ∀ y ∈ (simOthers ++ [(nm, 100, cnt)]).map Prod.fst,
        y ∉ st.processed)
    (h1 : ∀ e ∈ st.mapping, e.1 ∈ st.processed)
    (h2 : ∀ e ∈ st.mapping, e.2 ∈ st.processed)
    (h3 : ∀ e ∈ st.mapping, ∀ e' ∈ st.mapping, ¬ e.2 = e'.1) :
    (∀ e ∈ (clusterStep nm cnt simOthers st).mapping,
        e.1 ∈ (clusterStep nm cnt simOthers st).processed) ∧
    (∀ e ∈ (clusterStep nm cnt simOthers st).mapping,
        e.2 ∈ (clusterStep nm cnt simOthers st).processed) ∧
    (∀ e ∈ (clusterStep nm cnt simOthers st).mapping,
        ∀ e' ∈ (clusterStep nm cnt simOthers st).mapping, ¬ e.2 = e'.1) := by
  have hsim : (simOthers ++ [(nm, 100, cnt)]) ≠ [] := by simp
  have hcanon := chooseCanonical_mem_names (simOthers ++ [(nm, 100, cnt)]) hsim
  have hcanon_fresh : chooseCanonical (simOthers ++ [(nm, 100, cnt)]) ∉ st.processed :=
    hfresh _ hcanon
  have hvar_names : ∀ v ∈ (sortStable keepByCountDesc
        (simOthers ++ [(nm, 100, cnt)])).filter
        (fun v => v.1 ≠ chooseCanonical (simOthers ++ [(nm, 100, cnt)])),
      v.1 ∈ (simOthers ++ [(nm, 100, cnt)]).map Prod.fst
        ∧ ¬ v.1 = chooseCanonical (simOthers ++ [(nm, 100, cnt)]) := by
    intro v hv
    have hmemf := List.mem_filter.mp hv
    have hmem : v ∈ simOthers ++ [(nm, 100, cnt)] :=
      (sortStable_perm keepByCountDesc _).mem_iff.mp hmemf.1
    refine ⟨List.mem_map.mpr ⟨v, hmem, rfl⟩, by simpa using hmemf.2⟩
  simp only [clusterStep]
  refine ⟨?_, ?_, ?_⟩
  · intro e he
    rcases List.mem_append.mp he with he | he
    · exact List.mem_append.mpr (Or.inl (List.mem_append.mpr (Or.inl (h1 e he))))
    · obtain ⟨v, hv, rfl⟩ := List.mem_map.mp he
      refine List.mem_append.mpr (Or.inl (List.mem_append.mpr (Or.inr ?_)))
      exact List.mem_map.mpr ⟨v, hv, rfl⟩
  · intro e he
    rcases List.mem_append.mp he with he | he
    · exact List.mem_append.mpr (Or.inl (List.mem_append.mpr (Or.inl (h2 e he))))
    · obtain ⟨v, hv, rfl⟩ := List.mem_map.mp he
      exact List.mem_append.mpr (Or.inr (List.mem_singleton.mpr rfl))
  · intro e he e' he'
    rcases List.mem_append.mp he with he | he <;>
      rcases List.mem_append.mp he' with he' | he'
    · exact h3 e he e' he'
    · obtain ⟨v', hv', rfl⟩ := List.mem_map.mp he'
      intro hcontra
      have heq : e.2 = v'.1 := hcontra
      have hproc : v'.1 ∈ st.processed := heq ▸ h2 e he
      exact hfresh v'.1 (hvar_names v' hv').1 hproc
    · obtain ⟨v, hv, rfl⟩ := List.mem_map.mp he
      intro hcontra
      have heq : chooseCanonical (simOthers ++ [(nm, 100, cnt)]) = e'.1 := hcontra
      exact hcanon_fresh (heq ▸ h1 e' he')
    · obtain ⟨v, hv, rfl⟩ := List.mem_map.mp he
      obtain ⟨v', hv', rfl⟩ := List.mem_map.mp he'
      intro hcontra
      have heq : chooseCanonical (simOthers ++ [(nm, 100, cnt)]) = v'.1 := hcontra
      exact (hvar_names v' hv').2 heq.symm

/-- The loop of `find_fuzzy_clusters` preserves the invariant, so in the
final mapping no value is a key. -/
theorem fuzzyLoop_inv (counts : String → Nat) (uniq : List String) (th : ℚ) :
    ∀ (rest : List String) (st : ClusterState),
    (∀ e ∈ st.mapping, e.1 ∈ st.processed) →
    (∀ e ∈ st.mapping, e.2 ∈ st.processed) →
    (∀ e ∈ st.mapping, ∀ e' ∈ st.mapping, ¬ e.2 = e'.1) →
    (∀ e ∈ (fuzzyLoop counts uniq th rest st).mapping,
        ∀ e' ∈ (fuzzyLoop counts uniq th rest st).mapping, ¬ e.2 = e'.1) := by
  intro rest
  induction rest with
  | nil => intro st _ _ h3; exact h3
  | cons nm rest ih =>
    intro st h1 h2 h3
    unfold fuzzyLoop
    by_cases hp : st.processed.contains nm = true
    · rw [if_pos hp]
      exact ih st h1 h2 h3
    · rw [if_neg hp]
      by_cases hempty : ((uniq.filter (fun o =>
          o ≠ nm && !st.processed.contains o
            && fuzz_ratio (pyLowerL nm.toList) (pyLowerL o.toList) ≥ th)).map
          (fun o => (o, fuzz_ratio (pyLowerL nm.toList) (pyLowerL o.toList),
            counts o))).isEmpty = true
      · rw [if_pos hempty]
        exact ih st h1 h2 h3
      · rw [if_neg hempty]
        have hfresh : ∀ y ∈ (((uniq.filter (fun (o : String) =>
            o ≠ nm && !st.processed.contains o
              && fuzz_ratio (pyLowerL nm.toList) (pyLowerL o.toList) ≥ th)).map
            (fun (o : String) =>
              (o, fuzz_ratio (pyLowerL nm.toList) (pyLowerL o.toList),
                counts o))) ++ [(nm, 100, counts nm)]).map Prod.fst,
            y ∉ st.processed := by
          intro y hy
          rw [List.map_append, List.mem_append] at hy
          rcases hy with hy | hy
          · rw [List.map_map] at hy
            obtain ⟨o, ho, rfl⟩ := List.mem_map.mp hy
            have hpred := (List.mem_filter.mp ho).2
            simp only [Bool.and_eq_true, Bool.not_eq_true'] at hpred
            intro hmem
            have hno := hpred.1.2
            simp at hno
            exact hno hmem
          · simp only [List.map_cons, List.map_nil, List.mem_singleton] at hy
            subst hy
            intro hmem
            exact absurd (by simpa using hmem) (by simpa using hp)
        have hstep := clusterStep_inv nm (counts nm) _ st hfresh h1 h2 h3
        exact ih _ hstep.1 hstep.2.1 hstep.2.2

/-- C10: in the alias → canonical mapping returned by the fuzzy clusterer
no canonical value ever appears as a key (every entry's value fails to look
up), so chains cannot occur and applying the mapping twice to any name gives
the same result as applying it once. -/
theorem fuzzy_mapping_keys_values_disjoint_idempotent (names : List String) (th : ℚ) :
    ((find_fuzzy_clusters names th).all
      (fun e => (lookupList (find_fuzzy_clusters names th) e.2).isNone)) = true ∧
    ∀ x, applyMapping (find_fuzzy_clusters names th)
           (applyMapping (find_fuzzy_clusters names th) x)
         = applyMapping (find_fuzzy_clusters names th) x := by
  have hdisj : ∀ e ∈ find_fuzzy_clusters names th,
      ∀ e' ∈ find_fuzzy_clusters names th, ¬ e.2 = e'.1 := by
    have h := fuzzyLoop_inv
        (fun x => (names.filter (fun n => n ≠ "")).count x)
        (uniqueNames (names.filter (fun n => n ≠ ""))) th
        (uniqueNames (names.filter (fun n => n ≠ ""))) ⟨[], []⟩
        (fun e he => absurd he (List.not_mem_nil e))
        (fun e he => absurd he (List.not_mem_nil e))
        (fun e he => absurd he (List.not_mem_nil e))
    exact h
  constructor
  · rw [List.all_eq_true]
    intro e he
    rw [lookupList_eq_none _ _ (fun e' he' hh => hdisj e he e' he' hh.symm)]
    rfl
  · intro x
    cases h : lookupList (find_fuzzy_clusters names th) x with
    | none => simp [applyMapping, h]
    | some v =>
      have hv := lookupList_mem _ _ _ h
      have hvnone : lookupList (find_fuzzy_clusters names th) v = none :=
        lookupList_eq_none _ _ (fun e' he' hh => hdisj (x, v) hv e' he' hh.symm)
      simp [applyMapping, h, hvnone]
